import Mathlib

/- Verification of the OSRM preprocessing pipeline, shallowly embedded from
the C++ sources src/contractor/processing_chain.cpp and
src/extractor/extractor.cpp.  Machine doubles are modelled as rationals,
machine integers as Nat or Int; 32-bit unsigned wrap-around is modelled
explicitly where it matters.  Third-party library behaviour (tbb, the
TarjanSCC header) that is not part of the sources is modelled from its
documented contract, and every such definition says so in its doc comment. -/

/-- Sentinel node id (std::numeric_limits of unsigned, max value). -/
def SPECIAL_NODEID : Nat := 2 ^ 32 - 1

/-- The in-memory segment speed table of Prepare::LoadEdgeExpandedGraph:
a std::unordered_map keyed by the ordered pair of external OSM node ids. -/
def SpeedMap : Type := Nat × Nat → Option Nat

/-- One row of the segment-speed CSV file: from node, to node, speed km/h. -/
def SpeedRow : Type := Nat × Nat × Nat

/-- The CSV reading loop of Prepare::LoadEdgeExpandedGraph: each row is
stored under the ordered key (from_node, to_node); assignment through
operator[] lets a later row overwrite an earlier one with the same key. -/
def loadSpeedTable (rows : List SpeedRow) : SpeedMap :=
  rows.foldl (fun m r k => if k = (r.1, r.2.1) then some r.2.2 else m k)
    (fun _ => none)

/-- The speed the CSV rows leave under the ordered key (a, b): the last row
with from = a and to = b wins, none if no such row exists. -/
def lastSpeed (rows : List SpeedRow) (a b : Nat) : Option Nat :=
  rows.foldl (fun acc r => if (r.1, r.2.1) = (a, b) then some r.2.2 else acc) none

/-- The per-segment weight formula of Prepare::LoadEdgeExpandedGraph, applied
when the lookup succeeds: max(1, floor((L * 10) / (speed / 3.6) + 0.5)),
with the segment length L in meters (a C++ double, modelled as a rational)
and the speed in km/h. -/
def newSegmentWeight (L : ℚ) (speed : Nat) : Int :=
  max 1 (Int.floor ((L * 10) / ((speed : ℚ) / (18 / 5)) + 1 / 2))

/-- The branch on the speed lookup inside the segment loop of
Prepare::LoadEdgeExpandedGraph: the map is consulted with the ordered pair
(previous_osm_node_id, this_osm_node_id); on a hit the formula weight is
used, otherwise the segment keeps its stored weight. -/
def recomputeSegment (tbl : SpeedMap) (prev cur : Nat) (L : ℚ) (w : Int) : Int :=
  match tbl (prev, cur) with
  | some speed => newSegmentWeight L speed
  | none => w

/-- One record of the .edge_segment_lookup file as the reading loop consumes
it: the leading OSM node id, then for each further node the
(node id, segment length, segment weight) triple in file order. -/
structure EdgeSegmentRecord where
  firstNode : Nat
  segments : List (Nat × ℚ × Int)
deriving DecidableEq

/-- The inner reading loop of Prepare::LoadEdgeExpandedGraph: walk the
segment list, pairing each node id with its predecessor and accumulating the
recomputed segment weights into new_weight. -/
def segmentLoopWeight (tbl : SpeedMap) : Nat → List (Nat × ℚ × Int) → Int
  | _, [] => 0
  | prev, (cur, L, w) :: rest =>
    recomputeSegment tbl prev cur L w + segmentLoopWeight tbl cur rest

/-- The recomputed weight of one edge-based edge when a segment-speed file is
supplied: the fixed penalty read from the .edge_penalties file plus the
accumulated recomputed segment weights. -/
def loadEdgeWeight (tbl : SpeedMap) (fixedPenalty : Nat) (r : EdgeSegmentRecord) : Int :=
  (fixedPenalty : Int) + segmentLoopWeight tbl r.firstNode r.segments

/-- The consecutive (previous, this) node id pairs of an edge segment record,
each with its segment length and stored segment weight. -/
def segmentPairs (r : EdgeSegmentRecord) : List ((Nat × Nat) × ℚ × Int) :=
  (List.zip (r.firstNode :: r.segments.map (fun s => s.1)) r.segments).map
    (fun q => ((q.1, q.2.1), q.2.2))

/-- Stages of Prepare::Run that follow the core factor range check, in
program order. -/
inductive PrepareEvent where
  | loadedGraph
  | contractedGraph
  | wroteContractedGraph
  | wroteCoreMarker
deriving DecidableEq

/-- Control skeleton of Prepare::Run: the core factor range check comes
first and throws before anything is loaded; otherwise the pipeline loads the
edge-expanded graph, contracts it and writes the outputs. -/
def prepareRun (core_factor : ℚ) : Except String (List PrepareEvent) :=
  if core_factor > 1 ∨ core_factor < 0 then
    Except.error "Core factor must be between 0.0 to 1.0 (inclusive)"
  else
    Except.ok [PrepareEvent.loadedGraph, PrepareEvent.contractedGraph,
      PrepareEvent.wroteContractedGraph, PrepareEvent.wroteCoreMarker]

/-- Prepare::WriteCoreNodeMarker: the unsigned element count followed by the
unpacked payload, one byte per node, 1 for a core (uncontracted) node and 0
otherwise. -/
def writeCoreNodeMarker (is_core_node : List Bool) : Nat × List Nat :=
  (is_core_node.length, is_core_node.map (fun b => if b then 1 else 0))

/-- Modelled from the spec: the payload size of the .core artifact that
section 6 describes, a bitmap of the uncontracted nodes with one bit per
node padded to whole bytes. -/
def coreBitmapByteCount (n : Nat) : Nat := (n + 7) / 8

/-- Control skeleton of extractor::run: the .timestamp artifact is written
while the input header is examined, before parsing; only after parsing does
the empty edge list check run, returning exit code 1; otherwise PrepareData
and the expansion stage write the remaining artifacts.  The result is the
exit code paired with the artifacts created, in creation order. -/
def extractorRun {α : Type} (all_edges_list : List α) : Int × List String :=
  if all_edges_list.isEmpty then (1, ["timestamp"])
  else (0, ["timestamp", "osrm", "restrictions", "names", "geometry", "edges",
    "nodes", "ramIndex", "fileIndex"])

/-- Modulus of a 32-bit unsigned counter. -/
def UINT32_MOD : Nat := 2 ^ 32

/-- Unsigned 32-bit decrement, wrapping at zero. -/
def udec (k : Nat) : Nat := (k + (UINT32_MOD - 1)) % UINT32_MOD

/-- The per-edge segment-reading loop of Prepare::LoadEdgeExpandedGraph,
abstracted to its unsigned loop counter: the loop runs while the counter is
nonzero and decrements it each iteration.  The fuel argument bounds how many
steps are unfolded; the result is the iteration count when the loop exits
within the fuel, none otherwise. -/
def segmentReadLoop : Nat → Nat → Option Nat
  | _, 0 => some 0
  | 0, _ + 1 => none
  | fuel + 1, k + 1 => (segmentReadLoop fuel (udec (k + 1))).map (fun n => n + 1)

/-- Contracted edge record as Prepare::WriteContractedGraph sorts and
serializes it: the fields the node array construction inspects, plus the
weight so that records with equal source can be told apart. -/
structure QueryEdgeM where
  source : Nat
  target : Nat
  weight : Int
deriving DecidableEq

/-- Modelled from the spec: the tbb parallel_sort call on the contracted
edge list (section 4.7, sorts all contracted edges by source; neither the
QueryEdge comparator nor the sort implementation is under src).  The library
contract guarantees only that the output is a permutation of the input that
is sorted by the comparator; the sort is not stable. -/
def tbbSortedBySource (input output : List QueryEdgeM) : Prop :=
  output.Perm input ∧ output.Sorted (fun a b => a.source ≤ b.source)

/-- The while loop of WriteContractedGraph that advances the edge cursor
past every serialized edge whose source equals the current node. -/
def advanceEdge (srcs : List Nat) (node : Nat) (edge : Nat) : Nat :=
  if h : edge < srcs.length then
    if srcs.get ⟨edge, h⟩ = node then advanceEdge srcs node (edge + 1) else edge
  else edge
termination_by srcs.length - edge

/-- The first loop of WriteContractedGraph, filling the first edge fields
for nodes 0 through max_used_node_id: for each node it records the running
position, then advances the cursor and the position past the node's edges. -/
def nodeArrayLoop (srcs : List Nat) : Nat → Nat → Nat → Nat → List Nat
  | _, 0, _, _ => []
  | node, remaining + 1, edge, position =>
    position ::
      nodeArrayLoop srcs (node + 1) remaining (advanceEdge srcs node edge)
        (position + (advanceEdge srcs node edge - edge))

/-- The node array WriteContractedGraph builds: max_node_id + 2 entries, the
first max_used_node_id + 1 of them filled by the node loop, the remaining
ones sentinel entries equal to the contracted edge count. -/
def buildNodeArray (srcs : List Nat) (max_node_id max_used_node_id : Nat) : List Nat :=
  nodeArrayLoop srcs 0 (max_used_node_id + 1) 0 0 ++
    List.replicate ((max_node_id + 2) - (max_used_node_id + 1)) srcs.length

/-- The max_used_node_id lambda of WriteContractedGraph: the largest node id
appearing as source or target of a contracted edge, 0 for the empty list. -/
def maxUsedNodeId (edges : List QueryEdgeM) : Nat :=
  edges.foldl (fun tmp e => max (max tmp e.source) e.target) 0

/-- The node array WriteContractedGraph builds and serializes for a sorted
contracted edge list. -/
def writeContractedNodeArray (sorted_edges : List QueryEdgeM) (max_node_id : Nat) : List Nat :=
  buildNodeArray (sorted_edges.map QueryEdgeM.source) max_node_id (maxUsedNodeId sorted_edges)

/-- Number of entries of a source list smaller than a bound; the value the
first edge loop stores for each node of a sorted list. -/
def cntLt (srcs : List Nat) (n : Nat) : Nat := srcs.countP (fun s => decide (s < n))

/-- Edge-based edge record as extractor::FindComponents consumes it. -/
structure EdgeBasedEdgeM where
  source : Nat
  target : Nat
  weight : Int
  forward : Bool
  backward : Bool
deriving DecidableEq

/-- Edge-based node record: the paired forward and reverse edge-based node
ids that FindComponents links together; the reverse id is SPECIAL_NODEID
for one-way segments. -/
structure EdgeBasedNodeM where
  forward_edge_based_node_id : Nat
  reverse_edge_based_node_id : Nat
deriving DecidableEq

/-- The directed augmented edge list FindComponents builds: per input edge a
link (source, target) when the forward bit is set and a link
(target, source) when the backward bit is set, then for every edge-based
node whose reverse id is not the sentinel the two symmetric links between
the forward and reverse ids.  The subsequent sort and duplicate removal in
the source leave the set of links unchanged, so reachability over this list
is reachability in the graph handed to the component search. -/
def findComponentsEdgeList (edges : List EdgeBasedEdgeM)
    (nodes : List EdgeBasedNodeM) : List (Nat × Nat) :=
  edges.foldl (fun acc e =>
    acc ++ (if e.forward then [(e.source, e.target)] else []) ++
      (if e.backward then [(e.target, e.source)] else [])) [] ++
  nodes.foldl (fun acc nd =>
    acc ++ (if nd.reverse_edge_based_node_id ≠ SPECIAL_NODEID then
      [(nd.forward_edge_based_node_id, nd.reverse_edge_based_node_id),
       (nd.reverse_edge_based_node_id, nd.forward_edge_based_node_id)] else [])) []

/-- One step along a directed link of an augmented edge list. -/
def stepRel (es : List (Nat × Nat)) (a b : Nat) : Prop := (a, b) ∈ es

/-- Reachability along the directed links of an augmented edge list. -/
def reaches (es : List (Nat × Nat)) : Nat → Nat → Prop :=
  Relation.ReflTransGen (stepRel es)

/-- Mutual reachability: the two nodes lie in the same strongly connected
component of the augmented graph. -/
def sameSCC (es : List (Nat × Nat)) (a b : Nat) : Prop :=
  reaches es a b ∧ reaches es b a

/-- Modelled from the spec: the TarjanSCC header is not under src; section
4.4 says FindComponents runs Tarjan's strongly-connected-components
algorithm, so its component assignment is any labelling of the nodes 0
through max_edge_id that gives two nodes the same label exactly when they
are mutually reachable in the augmented graph. -/
def isSCCLabelling (comp : Nat → Nat) (max_edge_id : Nat)
    (es : List (Nat × Nat)) : Prop :=
  ∀ a b, a ≤ max_edge_id → b ≤ max_edge_id → (comp a = comp b ↔ sameSCC es a b)

/-- Modelled from the spec: get_component_size of the component search, the
number of nodes of the graph (ids 0 through max_edge_id) carrying the given
component label. -/
def componentSize (comp : Nat → Nat) (max_edge_id c : Nat) : Nat :=
  (List.range (max_edge_id + 1)).countP (fun n => decide (comp n = c))

/-- The final loop of FindComponents: every edge-based node record receives
the tiny flag, true exactly when the component of its forward edge-based
node id has size below 1000. -/
def findComponentsTinyFlags (comp : Nat → Nat) (max_edge_id : Nat)
    (nodes : List EdgeBasedNodeM) : List Bool :=
  nodes.map (fun nd =>
    decide (componentSize comp max_edge_id (comp nd.forward_edge_based_node_id) < 1000))

/- ------------------------------------------------------------------ -/
/- Theorems -/
/- ------------------------------------------------------------------ -/

lemma segmentLoopWeight_eq_sum (tbl : SpeedMap) (segs : List (Nat × ℚ × Int)) :
    ∀ prev : Nat,
      segmentLoopWeight tbl prev segs =
        ((List.zip (prev :: segs.map (fun s => s.1)) segs).map
          (fun q => recomputeSegment tbl q.1 q.2.1 q.2.2.1 q.2.2.2)).sum := by
  induction segs with
  | nil => intro prev; rfl
  | cons hd tl ih =>
    intro prev
    obtain ⟨cur, L, w⟩ := hd
    simp only [segmentLoopWeight, List.map_cons, List.zip_cons_cons, List.sum_cons, ih cur]

/-- C1: when prepare runs with a segment-speed file, each edge-based edge's
weight is recomputed as the fixed penalty from the .edge_penalties file plus,
for every original segment of its .edge_segment_lookup record, the formula
weight max(1, floor((L * 10) / (speed / 3.6) + 0.5)) when the segment's node
pair is found in the speed table and the stored segment weight otherwise. -/
theorem c1_reweight_formula (tbl : SpeedMap) (p : Nat) (r : EdgeSegmentRecord) :
    loadEdgeWeight tbl p r =
      (p : Int) + ((segmentPairs r).map (fun q =>
        match tbl q.1 with
        | some speed => max 1 (Int.floor ((q.2.1 * 10) / ((speed : ℚ) / (18 / 5)) + 1 / 2))
        | none => q.2.2)).sum := by
  unfold loadEdgeWeight segmentPairs
  rw [segmentLoopWeight_eq_sum]
  congr 1
  rw [List.map_map]
  refine congrArg List.sum ?_
  apply List.map_congr_left
  intro q _
  obtain ⟨prev, cur, L, w⟩ := q
  cases h : tbl (prev, cur) <;>
    simp [recomputeSegment, newSegmentWeight, h, Function.comp]

lemma loadSpeedTable_eq_lastSpeed (rows : List SpeedRow) (a b : Nat) :
    loadSpeedTable rows (a, b) = lastSpeed rows a b := by
  suffices h : ∀ (m : SpeedMap) (acc : Option Nat), m (a, b) = acc →
      (rows.foldl (fun m r k => if k = (r.1, r.2.1) then some r.2.2 else m k) m) (a, b) =
        rows.foldl (fun acc r => if (r.1, r.2.1) = (a, b) then some r.2.2 else acc) acc by
    exact h _ none rfl
  induction rows with
  | nil => intro m acc hm; simpa using hm
  | cons r rest ih =>
    intro m acc hm
    simp only [List.foldl_cons]
    apply ih
    by_cases hk : (a, b) = (r.1, r.2.1)
    · simp [hk]
    · have hk2 : ¬((r.1, r.2.1) = (a, b)) := fun h2 => hk h2.symm
      simp [hk, hk2, hm]

/-- C5 counterexample: with the single CSV row (2, 1, 50) the segment
(1, 2) keeps its stored weight 36 even though the reversed pair (2, 1) is in
the speed table; the unordered lookup the claim describes would have applied
the override, whose formula weight is 72. -/
theorem c5_unordered_lookup_cex :
    recomputeSegment (loadSpeedTable [(2, 1, 50)]) 1 2 100 36 = 36 ∧
    loadSpeedTable [(2, 1, 50)] (2, 1) = some 50 ∧
    newSegmentWeight 100 50 = 72 := by
  refine ⟨rfl, rfl, ?_⟩
  rw [newSegmentWeight]
  norm_num

/-- C5 amended: the lookup key is the ordered pair of external node ids in
segment direction: the override is applied exactly when some CSV row carries
that ordered pair (the last such row's speed winning), and the segment keeps
its factory-time weight whenever the ordered pair (a, b) is absent, even if
the reversed pair (b, a) is present. -/
theorem c5_ordered_lookup (rows : List SpeedRow) (a b : Nat) (L : ℚ) (w : Int) :
    (∀ s, lastSpeed rows a b = some s →
      recomputeSegment (loadSpeedTable rows) a b L w = newSegmentWeight L s) ∧
    (lastSpeed rows a b = none →
      recomputeSegment (loadSpeedTable rows) a b L w = w) := by
  constructor
  · intro s hs
    simp [recomputeSegment, loadSpeedTable_eq_lastSpeed, hs]
  · intro hs
    simp [recomputeSegment, loadSpeedTable_eq_lastSpeed, hs]

/-- Witness for the amended C5 theorem at the row list [(1, 2, 50)] and the
segment (1, 2). -/
theorem c5_ordered_lookup_witness :
    lastSpeed [(1, 2, 50)] 1 2 = some 50 ∧
    recomputeSegment (loadSpeedTable [(1, 2, 50)]) 1 2 100 36 = newSegmentWeight 100 50 :=
  ⟨rfl, (c5_ordered_lookup [(1, 2, 50)] 1 2 100 36).1 50 rfl⟩

/-- C7: the CSV loop of Prepare::LoadEdgeExpandedGraph accepts a row with
speed 0 km/h, stores it in the lookup table, and the reweighting loop then
takes the override branch for the matching segment, evaluating the formula
with divisor speed / 3.6 = 0 (an IEEE division by zero; division by zero is
total in the rational model).  The row is used, not rejected. -/
theorem c7_zero_speed_row_used :
    loadSpeedTable [(1, 2, 0)] (1, 2) = some 0 ∧
    recomputeSegment (loadSpeedTable [(1, 2, 0)]) 1 2 100 36 = newSegmentWeight 100 0 ∧
    newSegmentWeight 100 0 ≠ 36 := by
  refine ⟨rfl, rfl, ?_⟩
  rw [newSegmentWeight]
  norm_num

/-- C6: Prepare::Run aborts, before loading or contracting anything,
exactly when the configured core factor lies outside the closed interval
from 0 to 1; inside the interval the check passes. -/
theorem c6_core_factor_range (cf : ℚ) :
    (∃ msg, prepareRun cf = Except.error msg) ↔ (1 < cf ∨ cf < 0) := by
  unfold prepareRun
  by_cases h : cf > 1 ∨ cf < 0
  · simp [h]
  · simp [h]

/-- C8 counterexample: for 9 core nodes the payload Prepare's
WriteCoreNodeMarker writes holds 9 bytes, while a bitmap with one bit per
node padded to whole bytes would hold 2 bytes. -/
theorem c8_bitmap_cex :
    (writeCoreNodeMarker (List.replicate 9 true)).2.length = 9 ∧
    coreBitmapByteCount 9 = 2 ∧ (9 : Nat) ≠ 2 := by
  refine ⟨?_, rfl, by decide⟩
  simp [writeCoreNodeMarker]

/-- C8 amended: WriteCoreNodeMarker writes the .core file as an unsigned
element count followed by one byte per node, the byte being 1 exactly for the
core (uncontracted) nodes; no bit packing takes place. -/
theorem c8_byte_per_node (flags : List Bool) :
    (writeCoreNodeMarker flags).1 = flags.length ∧
    (writeCoreNodeMarker flags).2.length = flags.length ∧
    ∀ i, (writeCoreNodeMarker flags).2.getD i 0 =
      if flags.getD i false then 1 else 0 := by
  refine ⟨rfl, by simp [writeCoreNodeMarker], ?_⟩
  intro i
  simp only [writeCoreNodeMarker, List.getD_eq_getElem?_getD, List.getElem?_map]
  cases h : flags[i]? <;> simp [h]

/-- C9 counterexample: on an input whose parsed edge list is empty the
extract run exits with code 1, but the list of artifacts created before the
abort is not empty: the .timestamp file has already been written. -/
theorem c9_output_before_abort_cex :
    (extractorRun ([] : List Nat)).1 = 1 ∧
    (extractorRun ([] : List Nat)).2 ≠ [] ∧
    "timestamp" ∈ (extractorRun ([] : List Nat)).2 := by
  refine ⟨rfl, by decide, by decide⟩

/-- C9 amended: for every input map whose parsed edge list is empty, the
extract program aborts with exit code 1 before any of the graph artifacts is
created, but after the .timestamp file has been written. -/
theorem c9_empty_input_aborts {α : Type} (l : List α) (h : l.isEmpty = true) :
    (extractorRun l).1 = 1 ∧ (extractorRun l).2 = ["timestamp"] := by
  unfold extractorRun
  rw [h]
  exact ⟨rfl, rfl⟩

/-- Witness for the amended C9 theorem at the empty edge list. -/
theorem c9_empty_input_aborts_witness :
    (extractorRun ([] : List Nat)).1 = 1 ∧
    (extractorRun ([] : List Nat)).2 = ["timestamp"] :=
  c9_empty_input_aborts ([] : List Nat) rfl

lemma udec_succ (j : Nat) (h : j + 1 < UINT32_MOD) : udec (j + 1) = j := by
  unfold udec UINT32_MOD at *
  omega

lemma segmentReadLoop_counts (fuel : Nat) :
    ∀ k, k ≤ fuel → k < UINT32_MOD → segmentReadLoop fuel k = some k := by
  induction fuel with
  | zero =>
    intro k hk _
    interval_cases k
    rfl
  | succ f ih =>
    intro k hk hlt
    match k with
    | 0 => rfl
    | j + 1 =>
      rw [segmentReadLoop, udec_succ j hlt, ih j (by omega) (by omega)]
      rfl

/-- C10: in the segment-reading loop the unsigned node count is decremented
before the comparison with zero, so for every record whose node count N
satisfies N at least 1 (and N below 2 to the 32, the range of the unsigned
counter) the loop terminates after exactly N - 1 iterations. -/
theorem c10_segment_loop_iterations (N fuel : Nat) (h1 : 1 ≤ N)
    (h2 : N < UINT32_MOD) (hf : N - 1 ≤ fuel) :
    segmentReadLoop fuel (udec N) = some (N - 1) := by
  obtain ⟨j, rfl⟩ : ∃ j, N = j + 1 := ⟨N - 1, by omega⟩
  rw [udec_succ j h2]
  simpa using segmentReadLoop_counts fuel j (by omega) (by omega)

/-- Witness for the C10 theorem at node count 3 with fuel 5: the loop runs
exactly twice. -/
theorem c10_segment_loop_iterations_witness :
    segmentReadLoop 5 (udec 3) = some 2 :=
  c10_segment_loop_iterations 3 5 (by decide) (by norm_num [UINT32_MOD]) (by decide)

lemma advanceEdge_eq_takeWhile (srcs : List Nat) (node : Nat) :
    ∀ edge, advanceEdge srcs node edge =
      edge + ((srcs.drop edge).takeWhile (fun s => s == node)).length := by
  intro edge
  induction edge using advanceEdge.induct srcs node with
  | case1 edge h heq ih =>
    rw [advanceEdge, dif_pos h, if_pos heq, ih, List.drop_eq_getElem_cons h,
      List.takeWhile_cons_of_pos (by simpa using heq), List.length_cons]
    omega
  | case2 edge h heq =>
    rw [advanceEdge, dif_pos h, if_neg heq, List.drop_eq_getElem_cons h,
      List.takeWhile_cons_of_neg (by simpa using heq), List.length_nil,
      Nat.add_zero]
  | case3 edge h =>
    rw [advanceEdge, dif_neg h]
    rw [List.drop_eq_nil_of_le (by omega)]
    simp

lemma cntLt_zero (srcs : List Nat) : cntLt srcs 0 = 0 := by
  simp [cntLt]

lemma cntLt_eq_zero_of_le (srcs : List Nat) (n : Nat) (h : ∀ x ∈ srcs, n ≤ x) :
    cntLt srcs n = 0 := by
  rw [cntLt, List.countP_eq_zero]
  intro a ha
  simpa using not_lt.mpr (h a ha)

lemma cntLt_mono (srcs : List Nat) (n : Nat) : cntLt srcs n ≤ cntLt srcs (n + 1) := by
  apply List.countP_mono_left
  intro x _ hx
  simp only [decide_eq_true_eq] at hx ⊢
  omega

lemma cntLt_le_length (srcs : List Nat) (n : Nat) : cntLt srcs n ≤ srcs.length :=
  List.countP_le_length _

lemma cntLt_cons (a : Nat) (t : List Nat) (n : Nat) :
    cntLt (a :: t) n = cntLt t n + if a < n then 1 else 0 := by
  rw [cntLt, List.countP_cons, cntLt]
  by_cases h : a < n <;> simp [h]

lemma takeWhile_len_of_lower (n : Nat) :
    ∀ t : List Nat, t.Sorted (· ≤ ·) → (∀ x ∈ t, n ≤ x) →
      (t.takeWhile (fun s => s == n)).length = cntLt t (n + 1) := by
  intro t
  induction t with
  | nil => intro _ _; rfl
  | cons b t ih =>
    intro hs hlow
    obtain ⟨hb, ht⟩ := List.sorted_cons.mp hs
    have hcons := cntLt_cons b t (n + 1)
    by_cases hbn : b = n
    · subst hbn
      rw [List.takeWhile_cons_of_pos (by simp), List.length_cons, ih ht hb]
      have hlt : b < b + 1 := by omega
      rw [hcons, if_pos hlt]
    · have hnb : n < b :=
        lt_of_le_of_ne (hlow b (List.mem_cons_self b t)) (fun h2 => hbn h2.symm)
      rw [List.takeWhile_cons_of_neg (by simpa using hbn)]
      have h1 : cntLt t (n + 1) = 0 :=
        cntLt_eq_zero_of_le t (n + 1) (fun x hx => le_trans hnb (hb x hx))
      have hnlt : ¬(b < n + 1) := by omega
      rw [hcons, if_neg hnlt, h1]
      rfl

lemma sorted_cntLt_block (n : Nat) :
    ∀ srcs : List Nat, srcs.Sorted (· ≤ ·) →
      cntLt srcs n + ((srcs.drop (cntLt srcs n)).takeWhile (fun s => s == n)).length =
        cntLt srcs (n + 1) := by
  intro srcs
  induction srcs with
  | nil => intro _; rfl
  | cons a t ih =>
    intro hs
    obtain ⟨ha, ht⟩ := List.sorted_cons.mp hs
    by_cases han : a < n
    · have h1 : cntLt (a :: t) n = cntLt t n + 1 := by
        rw [cntLt_cons, if_pos han]
      have h2 : cntLt (a :: t) (n + 1) = cntLt t (n + 1) + 1 := by
        rw [cntLt_cons, if_pos (by omega : a < n + 1)]
      rw [h1, h2, List.drop_succ_cons]
      have h3 := ih ht
      omega
    · have hlow : ∀ x ∈ a :: t, n ≤ x := by
        intro x hx
        rcases List.mem_cons.mp hx with rfl | hx2
        · omega
        · exact le_trans (not_lt.mp han) (ha x hx2)
      have h0 : cntLt (a :: t) n = 0 := cntLt_eq_zero_of_le _ _ hlow
      rw [h0, List.drop_zero, Nat.zero_add]
      exact takeWhile_len_of_lower n (a :: t) hs hlow

lemma advanceEdge_cntLt (srcs : List Nat) (hs : srcs.Sorted (· ≤ ·)) (n : Nat) :
    advanceEdge srcs n (cntLt srcs n) = cntLt srcs (n + 1) := by
  rw [advanceEdge_eq_takeWhile]
  exact sorted_cntLt_block n srcs hs

lemma nodeArrayLoop_length (srcs : List Nat) :
    ∀ r node edge position : Nat,
      (nodeArrayLoop srcs node r edge position).length = r := by
  intro r
  induction r with
  | zero => intro node edge position; rfl
  | succ r ih =>
    intro node edge position
    simp only [nodeArrayLoop, List.length_cons, ih]

lemma nodeArrayLoop_closed (srcs : List Nat) (hs : srcs.Sorted (· ≤ ·)) :
    ∀ r n : Nat,
      nodeArrayLoop srcs n r (cntLt srcs n) (cntLt srcs n) =
        (List.range' n r).map (fun i => cntLt srcs i) := by
  intro r
  induction r with
  | zero => intro n; rfl
  | succ r ih =>
    intro n
    rw [List.range'_succ, List.map_cons]
    show cntLt srcs n ::
        nodeArrayLoop srcs (n + 1) r (advanceEdge srcs n (cntLt srcs n))
          (cntLt srcs n + (advanceEdge srcs n (cntLt srcs n) - cntLt srcs n)) = _
    rw [advanceEdge_cntLt srcs hs n, Nat.add_sub_cancel' (cntLt_mono srcs n),
      ih (n + 1)]

lemma findIdx_map_comp {α β : Type} (f : α → β) (p : β → Bool) :
    ∀ l : List α, (l.map f).findIdx p = l.findIdx (fun a => p (f a)) := by
  intro l
  induction l with
  | nil => rfl
  | cons a t ih => simp [List.findIdx_cons, ih]

lemma sorted_findIdx_eq_cntLt (i : Nat) :
    ∀ srcs : List Nat, srcs.Sorted (· ≤ ·) → i ∈ srcs →
      srcs.findIdx (fun s => s == i) = cntLt srcs i := by
  intro srcs
  induction srcs with
  | nil => intro _ h; cases h
  | cons a t ih =>
    intro hs hmem
    obtain ⟨ha, ht⟩ := List.sorted_cons.mp hs
    by_cases hai : a = i
    · subst hai
      rw [List.findIdx_cons]
      simp only [beq_self_eq_true, cond_true]
      symm
      apply cntLt_eq_zero_of_le
      intro x hx
      rcases List.mem_cons.mp hx with rfl | hx2
      · exact le_refl x
      · exact ha x hx2
    · have hmem2 : i ∈ t := by
        rcases List.mem_cons.mp hmem with rfl | h2
        · exact absurd rfl hai
        · exact h2
      have hlt : a < i := lt_of_le_of_ne (ha i hmem2) hai
      have hb : (a == i) = false := by simpa using hai
      rw [List.findIdx_cons]
      simp only [hb, cond_false]
      have h1 : cntLt (a :: t) i = cntLt t i + 1 := by
        rw [cntLt_cons, if_pos hlt]
      rw [ih ht hmem2, h1]

lemma buildNodeArray_getD_le (srcs : List Nat) (hs : srcs.Sorted (· ≤ ·))
    (mN mu k : Nat) (hk : k ≤ mu) :
    (buildNodeArray srcs mN mu).getD k 0 = cntLt srcs k := by
  unfold buildNodeArray
  rw [List.getD_append _ _ _ k (by rw [nodeArrayLoop_length]; omega)]
  have hcf := nodeArrayLoop_closed srcs hs (mu + 1) 0
  rw [cntLt_zero] at hcf
  rw [hcf, List.getD_eq_getElem?_getD, List.getElem?_map,
    List.getElem?_range' 0 1 (by omega)]
  simp

lemma buildNodeArray_getD_sentinel (srcs : List Nat) (mN mu k : Nat)
    (hk1 : mu + 1 ≤ k) (hk2 : k < mN + 2) :
    (buildNodeArray srcs mN mu).getD k 0 = srcs.length := by
  unfold buildNodeArray
  rw [List.getD_append_right _ _ _ k (by rw [nodeArrayLoop_length]; omega)]
  rw [nodeArrayLoop_length, List.getD_eq_getElem?_getD, List.getElem?_replicate]
  have hlt : k - (mu + 1) < mN + 1 - mu := by omega
  simp [hlt]

lemma maxUsed_foldl_init_le :
    ∀ (l : List QueryEdgeM) (init : Nat),
      init ≤ l.foldl (fun tmp e => max (max tmp e.source) e.target) init := by
  intro l
  induction l with
  | nil => intro init; exact le_refl _
  | cons e t ih =>
    intro init
    simp only [List.foldl_cons]
    exact le_trans (le_trans (le_max_left init e.source) (le_max_left _ e.target)) (ih _)

lemma mem_le_maxUsed_foldl :
    ∀ (l : List QueryEdgeM) (x : QueryEdgeM), x ∈ l → ∀ init : Nat,
      x.source ≤ l.foldl (fun tmp e => max (max tmp e.source) e.target) init ∧
      x.target ≤ l.foldl (fun tmp e => max (max tmp e.source) e.target) init := by
  intro l
  induction l with
  | nil => intro x hx; cases hx
  | cons e t ih =>
    intro x hx init
    simp only [List.foldl_cons]
    rcases List.mem_cons.mp hx with rfl | hx2
    · constructor
      · exact le_trans (le_trans (le_max_right _ _) (le_max_left _ _))
          (maxUsed_foldl_init_le t _)
      · exact le_trans (le_max_right _ _) (maxUsed_foldl_init_le t _)
    · exact ih x hx2 _

lemma maxUsed_foldl_le_bound (B : Nat) :
    ∀ l : List QueryEdgeM, (∀ e ∈ l, e.source ≤ B ∧ e.target ≤ B) →
      ∀ init : Nat, init ≤ B →
        l.foldl (fun tmp e => max (max tmp e.source) e.target) init ≤ B := by
  intro l
  induction l with
  | nil => intro _ init h; simpa using h
  | cons e t ih =>
    intro hb init hinit
    simp only [List.foldl_cons]
    apply ih (fun x hx => hb x (List.mem_cons_of_mem e hx))
    have h1 := hb e (List.mem_cons_self e t)
    exact max_le (max_le hinit h1.1) h1.2

lemma source_le_maxUsedNodeId (l : List QueryEdgeM) (e : QueryEdgeM) (he : e ∈ l) :
    e.source ≤ maxUsedNodeId l := (mem_le_maxUsed_foldl l e he 0).1

lemma maxUsedNodeId_le (l : List QueryEdgeM) (B : Nat)
    (h : ∀ e ∈ l, e.source ≤ B ∧ e.target ≤ B) : maxUsedNodeId l ≤ B :=
  maxUsed_foldl_le_bound B l h 0 (Nat.zero_le B)

/-- C2: for every contracted edge list and every max_node_id at least as
large as every node id occurring in it, the node array WriteContractedGraph
builds over the sorted edge list has length max_node_id + 2; entry i is the
index of the first serialized edge with source i whenever such an edge
exists; consecutive entries never decrease; and every entry from index
max_used_node_id + 1 through the end equals the contracted edge count. -/
theorem c2_node_array_csr (xs ys : List QueryEdgeM) (max_node_id : Nat)
    (hsort : tbbSortedBySource xs ys)
    (hmax : ∀ e ∈ xs, e.source ≤ max_node_id ∧ e.target ≤ max_node_id) :
    (writeContractedNodeArray ys max_node_id).length = max_node_id + 2 ∧
    (∀ i, (∃ e ∈ ys, e.source = i) →
      (writeContractedNodeArray ys max_node_id).getD i 0 =
        ys.findIdx (fun e => e.source == i)) ∧
    (∀ n, n + 1 < max_node_id + 2 →
      (writeContractedNodeArray ys max_node_id).getD n 0 ≤
        (writeContractedNodeArray ys max_node_id).getD (n + 1) 0) ∧
    (∀ k, maxUsedNodeId ys + 1 ≤ k → k < max_node_id + 2 →
      (writeContractedNodeArray ys max_node_id).getD k 0 = ys.length) := by
  obtain ⟨hperm, hsorted⟩ := hsort
  have hs : (ys.map QueryEdgeM.source).Sorted (· ≤ ·) :=
    List.pairwise_map.mpr hsorted
  have hmax2 : ∀ e ∈ ys, e.source ≤ max_node_id ∧ e.target ≤ max_node_id :=
    fun e he => hmax e (hperm.subset he)
  have hmu : maxUsedNodeId ys ≤ max_node_id := maxUsedNodeId_le ys max_node_id hmax2
  have hlen : (ys.map QueryEdgeM.source).length = ys.length := List.length_map _ _
  refine ⟨?_, ?_, ?_, ?_⟩
  · unfold writeContractedNodeArray buildNodeArray
    rw [List.length_append, nodeArrayLoop_length, List.length_replicate]
    omega
  · rintro i ⟨e, he, hei⟩
    have hi_mu : i ≤ maxUsedNodeId ys := hei ▸ source_le_maxUsedNodeId ys e he
    unfold writeContractedNodeArray
    have hfind : ys.findIdx (fun e => e.source == i) =
        (ys.map QueryEdgeM.source).findIdx (fun s => s == i) :=
      (findIdx_map_comp QueryEdgeM.source (fun s => s == i) ys).symm
    rw [buildNodeArray_getD_le _ hs max_node_id _ i hi_mu, hfind,
      sorted_findIdx_eq_cntLt i _ hs (List.mem_map.mpr ⟨e, he, hei⟩)]
  · intro n hn
    unfold writeContractedNodeArray
    by_cases h1 : n + 1 ≤ maxUsedNodeId ys
    · rw [buildNodeArray_getD_le _ hs max_node_id _ n (by omega),
        buildNodeArray_getD_le _ hs max_node_id _ (n + 1) h1]
      exact cntLt_mono _ n
    · by_cases h2 : n ≤ maxUsedNodeId ys
      · rw [buildNodeArray_getD_le _ hs max_node_id _ n h2,
          buildNodeArray_getD_sentinel _ max_node_id _ (n + 1) (by omega) (by omega)]
        exact cntLt_le_length _ n
      · rw [buildNodeArray_getD_sentinel _ max_node_id _ n (by omega) (by omega),
          buildNodeArray_getD_sentinel _ max_node_id _ (n + 1) (by omega) (by omega)]
  · intro k hk1 hk2
    unfold writeContractedNodeArray
    rw [buildNodeArray_getD_sentinel _ max_node_id _ k hk1 hk2, hlen]

/-- Witness for the C2 theorem on the two-edge list with sources 1 and 0,
sorted output [source 0, source 1], and max_node_id 3. -/
theorem c2_node_array_csr_witness :
    tbbSortedBySource [⟨1, 0, 5⟩, ⟨0, 1, 7⟩] [⟨0, 1, 7⟩, ⟨1, 0, 5⟩] ∧
    (writeContractedNodeArray [⟨0, 1, 7⟩, ⟨1, 0, 5⟩] 3).length = 3 + 2 ∧
    (writeContractedNodeArray [⟨0, 1, 7⟩, ⟨1, 0, 5⟩] 3).getD 1 0 =
      ([⟨0, 1, 7⟩, ⟨1, 0, 5⟩] : List QueryEdgeM).findIdx (fun e => e.source == 1) ∧
    (writeContractedNodeArray [⟨0, 1, 7⟩, ⟨1, 0, 5⟩] 3).getD 2 0 ≤
      (writeContractedNodeArray [⟨0, 1, 7⟩, ⟨1, 0, 5⟩] 3).getD 3 0 ∧
    (writeContractedNodeArray [⟨0, 1, 7⟩, ⟨1, 0, 5⟩] 3).getD 4 0 = 2 := by
  have h : tbbSortedBySource [⟨1, 0, 5⟩, ⟨0, 1, 7⟩] [⟨0, 1, 7⟩, ⟨1, 0, 5⟩] :=
    ⟨by decide, by decide⟩
  have hmax : ∀ e ∈ ([⟨1, 0, 5⟩, ⟨0, 1, 7⟩] : List QueryEdgeM),
      e.source ≤ 3 ∧ e.target ≤ 3 := by decide
  obtain ⟨h1, h2, h3, h4⟩ := c2_node_array_csr _ _ 3 h hmax
  exact ⟨h, h1, h2 1 ⟨⟨1, 0, 5⟩, by decide, rfl⟩, h3 2 (by omega),
    h4 4 (by decide) (by omega)⟩

/-- C3 counterexample: the modelled sort contract admits, for the two-edge
input with equal sources, an output in which the two records appear in the
opposite of their original relative order; equal-key order preservation is
not guaranteed. -/
theorem c3_stable_sort_cex :
    tbbSortedBySource [⟨0, 0, 1⟩, ⟨0, 0, 2⟩] [⟨0, 0, 2⟩, ⟨0, 0, 1⟩] ∧
    ¬ (∀ k, (([⟨0, 0, 2⟩, ⟨0, 0, 1⟩] : List QueryEdgeM).filter (fun e => e.source == k)) =
        (([⟨0, 0, 1⟩, ⟨0, 0, 2⟩] : List QueryEdgeM).filter (fun e => e.source == k))) := by
  constructor
  · exact ⟨by decide, by decide⟩
  · intro hst
    exact absurd (hst 0) (by decide)

/-- C3 amended: before serializing the .hsgr edge array WriteContractedGraph
sorts the contracted edges with tbb parallel_sort, whose contract guarantees
a permutation of the input ordered primarily by source (indices never see a
source decrease, multiplicities are preserved); the relative order of edges
with equal source is not guaranteed. -/
theorem c3_sorted_by_source (xs ys : List QueryEdgeM) (h : tbbSortedBySource xs ys) :
    (∀ i j (hi : i < ys.length) (hj : j < ys.length), i ≤ j →
      (ys.get ⟨i, hi⟩).source ≤ (ys.get ⟨j, hj⟩).source) ∧
    (∀ e : QueryEdgeM, ys.count e = xs.count e) := by
  obtain ⟨hperm, hsorted⟩ := h
  constructor
  · intro i j hi hj hij
    rcases Nat.lt_or_ge j i with hgt | hge
    · omega
    · rcases Nat.eq_or_lt_of_le hge with heq | hlt
      · subst heq
        exact le_rfl
      · exact hsorted.rel_get_of_lt hlt
  · intro e
    exact hperm.count_eq e

/-- Witness for the amended C3 theorem on a two-edge list with distinct
sources. -/
theorem c3_sorted_by_source_witness :
    tbbSortedBySource [⟨1, 1, 1⟩, ⟨0, 2, 2⟩] [⟨0, 2, 2⟩, ⟨1, 1, 1⟩] ∧
    (([⟨0, 2, 2⟩, ⟨1, 1, 1⟩] : List QueryEdgeM).get ⟨0, by decide⟩).source ≤
      (([⟨0, 2, 2⟩, ⟨1, 1, 1⟩] : List QueryEdgeM).get ⟨1, by decide⟩).source ∧
    ([⟨0, 2, 2⟩, ⟨1, 1, 1⟩] : List QueryEdgeM).count ⟨1, 1, 1⟩ =
      ([⟨1, 1, 1⟩, ⟨0, 2, 2⟩] : List QueryEdgeM).count ⟨1, 1, 1⟩ := by
  have h : tbbSortedBySource [⟨1, 1, 1⟩, ⟨0, 2, 2⟩] [⟨0, 2, 2⟩, ⟨1, 1, 1⟩] :=
    ⟨by decide, by decide⟩
  obtain ⟨hmono, hcount⟩ := c3_sorted_by_source _ _ h
  exact ⟨h, hmono 0 1 (by decide) (by decide) (by decide), hcount _⟩

lemma getD_map_of_lt {α β : Type} (f : α → β) (l : List α) (i : Nat)
    (h : i < l.length) (d : β) : (l.map f).getD i d = f (l.get ⟨i, h⟩) := by
  rw [List.getD_eq_getElem?_getD, List.getElem?_map, List.getElem?_eq_getElem h]
  rfl

lemma card_filter_range_eq_countP (p : Nat → Prop) [DecidablePred p] :
    ∀ n : Nat, ((Finset.range n).filter p).card =
      (List.range n).countP (fun m => decide (p m)) := by
  intro n
  induction n with
  | zero => rfl
  | succ n ih =>
    rw [Finset.range_succ, Finset.filter_insert, List.range_succ,
      List.countP_append]
    by_cases h : p n
    · have hnot : n ∉ (Finset.range n).filter p := by simp
      rw [if_pos h, Finset.card_insert_of_not_mem hnot, ih]
      simp [h]
    · rw [if_neg h, ih]
      simp [h]

lemma componentSize_eq_ncard (es : List (Nat × Nat)) (comp : Nat → Nat)
    (maxE v : Nat) (hscc : isSCCLabelling comp maxE es) (hv : v ≤ maxE) :
    componentSize comp maxE (comp v) =
      Set.ncard {m : Nat | m ≤ maxE ∧ sameSCC es m v} := by
  have hset : {m : Nat | m ≤ maxE ∧ sameSCC es m v} =
      ↑((Finset.range (maxE + 1)).filter (fun m => comp m = comp v)) := by
    ext m
    simp only [Set.mem_setOf_eq, Finset.mem_coe, Finset.mem_filter,
      Finset.mem_range, Nat.lt_succ_iff]
    constructor
    · rintro ⟨hm, hsc⟩
      exact ⟨hm, (hscc m v hm hv).mpr hsc⟩
    · rintro ⟨hm, hc⟩
      exact ⟨hm, (hscc m v hm hv).mp hc⟩
  rw [hset, Set.ncard_coe_Finset, card_filter_range_eq_countP]
  rfl

/-- C4: with the component labelling the Tarjan search produces on the
directed augmented graph (a link per forward bit, a link per backward bit,
and symmetric links between every paired forward and reverse edge-based node
id), FindComponents sets the tiny flag of an edge-based node to true exactly
when fewer than 1000 of the graph's nodes are mutually reachable with the
node's forward id. -/
theorem c4_tiny_component_flag (edges : List EdgeBasedEdgeM)
    (nodes : List EdgeBasedNodeM) (comp : Nat → Nat) (max_edge_id : Nat)
    (hscc : isSCCLabelling comp max_edge_id (findComponentsEdgeList edges nodes))
    (i : Nat) (hi : i < nodes.length)
    (hfwd : (nodes.get ⟨i, hi⟩).forward_edge_based_node_id ≤ max_edge_id) :
    ((findComponentsTinyFlags comp max_edge_id nodes).getD i false = true ↔
      Set.ncard {m : Nat | m ≤ max_edge_id ∧
        sameSCC (findComponentsEdgeList edges nodes) m
          (nodes.get ⟨i, hi⟩).forward_edge_based_node_id} < 1000) := by
  unfold findComponentsTinyFlags
  rw [getD_map_of_lt _ nodes i hi false, decide_eq_true_eq,
    componentSize_eq_ncard _ comp _ _ hscc hfwd]

/-- Witness for the C4 theorem: one bidirectional edge between 0 and 1 and
one paired node record (forward 0, reverse 1); the augmented graph is a
single strongly connected component of size 2, the constant labelling
satisfies the modelled Tarjan contract, and the tiny flag is set. -/
theorem c4_tiny_component_flag_witness :
    isSCCLabelling (fun _ => 0) 1
      (findComponentsEdgeList [⟨0, 1, 10, true, true⟩] [⟨0, 1⟩]) ∧
    ((findComponentsTinyFlags (fun _ => 0) 1 [⟨0, 1⟩]).getD 0 false = true ↔
      Set.ncard {m : Nat | m ≤ 1 ∧
        sameSCC (findComponentsEdgeList [⟨0, 1, 10, true, true⟩] [⟨0, 1⟩]) m
          (([⟨0, 1⟩] : List EdgeBasedNodeM).get
            ⟨0, by decide⟩).forward_edge_based_node_id} < 1000) := by
  have hstep01 : stepRel (findComponentsEdgeList [⟨0, 1, 10, true, true⟩] [⟨0, 1⟩]) 0 1 := by
    show ((0 : Nat), (1 : Nat)) ∈ findComponentsEdgeList [⟨0, 1, 10, true, true⟩] [⟨0, 1⟩]
    decide
  have hstep10 : stepRel (findComponentsEdgeList [⟨0, 1, 10, true, true⟩] [⟨0, 1⟩]) 1 0 := by
    show ((1 : Nat), (0 : Nat)) ∈ findComponentsEdgeList [⟨0, 1, 10, true, true⟩] [⟨0, 1⟩]
    decide
  have h01 : reaches (findComponentsEdgeList [⟨0, 1, 10, true, true⟩] [⟨0, 1⟩]) 0 1 :=
    Relation.ReflTransGen.single hstep01
  have h10 : reaches (findComponentsEdgeList [⟨0, 1, 10, true, true⟩] [⟨0, 1⟩]) 1 0 :=
    Relation.ReflTransGen.single hstep10
  have hscc : isSCCLabelling (fun _ => 0) 1
      (findComponentsEdgeList [⟨0, 1, 10, true, true⟩] [⟨0, 1⟩]) := by
    intro a b ha hb
    constructor
    · intro _
      interval_cases a <;> interval_cases b
      · exact ⟨Relation.ReflTransGen.refl, Relation.ReflTransGen.refl⟩
      · exact ⟨h01, h10⟩
      · exact ⟨h10, h01⟩
      · exact ⟨Relation.ReflTransGen.refl, Relation.ReflTransGen.refl⟩
    · intro _
      rfl
  exact ⟨hscc, c4_tiny_component_flag [⟨0, 1, 10, true, true⟩] [⟨0, 1⟩]
    (fun _ => 0) 1 hscc 0 (by decide) (by decide)⟩
